import Mathlib

/-!
# Verification of the archivedir streaming split/compress/reassemble core

Shallow embedding of the core classes of `archivedir.py`:

* `SplitFileWriter`  — a sink that splits a byte stream across numbered parts
  of bounded size (`src/archivedir.py`, lines 31–117);
* `ParallelGzipWriter` — chunks an input stream, compresses chunks through a
  worker pool, and drains results in FIFO submission order onto a sink
  (`src/archivedir.py`, lines 119–163);
* `MultiPartFileReader` — presents numbered parts as one continuous readable
  stream (`src/archivedir.py`, lines 365–416).

Bytes are modelled as `Nat` values (their numeric identity is never used), a
byte string as `List Nat`.  File contents live in the state structures instead
of on disk; a part's filename is identified with its numeric part index.  The
zlib compressor invoked by `_compress_chunk` is an external library, so
compression is a parameter of the model: a function from submission index and
chunk payload to `Except String` of the frame bytes (the index models
per-submission fault injection, the `Except` a worker raising on `result()`).
Thread-pool futures are modelled by the pending FIFO itself: `futures` stores
each submitted chunk's payload in submission order, and `future.result()`
becomes applying the compression function at drain time — which is exactly why
worker completion order cannot influence the model, matching the code where
`result()` blocks on the specific future popped from the head of the list.
-/

namespace Archivedir

/-- A byte string. -/
abbrev Bytes := List Nat

/-! ## SplitFileWriter (src/archivedir.py lines 31–117) -/

/-- State of `SplitFileWriter`.  `cur` is the currently open part's content
(`None` before the first open, mirroring `self.current_file = None`);
`closed_parts` holds the contents of parts closed by `_open_next_file`
rollovers, in order.  `files_ready_for_upload` records part indices (the
numeric suffix of `current_filename`).  `rollover_bytes` is a ghost counter
for the bytes written by `self.current_file.write(data[:remaining_space])`
in the splitting branch of `write`, which the source does *not* add to
`total_bytes_written`. -/
structure SplitFileWriter where
  split_size : Nat
  part_num : Nat := 0
  cur : Option Bytes := none
  bytes_written_current : Nat := 0
  total_bytes_written : Nat := 0
  s3_bucket : Bool := false
  files_ready_for_upload : List Nat := []
  closed_parts : List Bytes := []
  rollover_bytes : Nat := 0
deriving Repr, DecidableEq

/-- A fresh writer, as built by `SplitFileWriter.__init__`. -/
def SplitFileWriter.mk0 (split_size : Nat) (s3 : Bool) : SplitFileWriter :=
  { split_size := split_size, s3_bucket := s3 }

/-- `_open_next_file` (lines 50–59): close the current part if open (recording
its name for upload when an S3 bucket is configured), then open the next part
with a fresh byte counter.  The part just closed carries index
`part_num - 1`, since `part_num` was incremented when it was opened. -/
def SplitFileWriter.openNext (w : SplitFileWriter) : SplitFileWriter :=
  let w1 :=
    match w.cur with
    | some c =>
        { w with
          closed_parts := w.closed_parts ++ [c]
          files_ready_for_upload :=
            if w.s3_bucket then w.files_ready_for_upload ++ [w.part_num - 1]
            else w.files_ready_for_upload }
    | none => w
  { w1 with
    cur := some []
    part_num := w1.part_num + 1
    bytes_written_current := 0 }

/-- `write` (lines 61–76), fuelled.  The source recurses on
`data[remaining_space:]`; with `split_size = 0` and non-empty data that
recursion never terminates (Python would hit the recursion limit), so the
embedding takes explicit fuel and returns `none` on exhaustion.
`write` below supplies fuel that is proven sufficient whenever
`0 < split_size`. -/
def SplitFileWriter.writeGo : Nat → SplitFileWriter → Bytes → Option SplitFileWriter
  | 0, _, _ => none
  | fuel + 1, w0, data =>
    let w := if w0.cur.isSome then w0 else w0.openNext
    let dlen := data.length
    if w.split_size < w.bytes_written_current + dlen then
      let remaining := w.split_size - w.bytes_written_current
      let w1 := { w with
        cur := some (w.cur.getD [] ++ data.take remaining)
        rollover_bytes := w.rollover_bytes + remaining }
      SplitFileWriter.writeGo fuel w1.openNext (data.drop remaining)
    else
      some { w with
        cur := some (w.cur.getD [] ++ data)
        bytes_written_current := w.bytes_written_current + dlen
        total_bytes_written := w.total_bytes_written + dlen }

/-- `SplitFileWriter.write` (lines 61–76). -/
def SplitFileWriter.write (w : SplitFileWriter) (data : Bytes) :
    Option SplitFileWriter :=
  SplitFileWriter.writeGo (data.length + 2) w data

/-- `close` (lines 78–82): if a part is open, close its handle and, when an S3
bucket is configured, append its name to the upload list.  Note the source
does *not* reset `current_file`, so a second `close` repeats this. -/
def SplitFileWriter.close (w : SplitFileWriter) : SplitFileWriter :=
  match w.cur with
  | some _ =>
      { w with
        files_ready_for_upload :=
          if w.s3_bucket then w.files_ready_for_upload ++ [w.part_num - 1]
          else w.files_ready_for_upload }
  | none => w

/-- `get_part_count` (lines 84–86). -/
def SplitFileWriter.get_part_count (w : SplitFileWriter) : Nat := w.part_num

/-- `is_single_file` (lines 88–90). -/
def SplitFileWriter.is_single_file (w : SplitFileWriter) : Bool :=
  w.part_num == 1

/-- The contents of all part files on disk, in part order: the parts closed by
rollovers followed by the currently open part, if any. -/
def SplitFileWriter.allParts (w : SplitFileWriter) : List Bytes :=
  w.closed_parts ++ (match w.cur with | some c => [c] | none => [])

/-- Feed a sequence of `write` calls to the sink, propagating fuel
exhaustion. -/
def SplitFileWriter.runWrites (w : SplitFileWriter) :
    List Bytes → Option SplitFileWriter
  | [] => some w
  | d :: ds => do
      let w' ← w.write d
      SplitFileWriter.runWrites w' ds

/-! ## ParallelGzipWriter (src/archivedir.py lines 119–163)

The compression function is a parameter
`compress : Nat → Bytes → Except String Bytes`: its first argument is the
chunk's submission sequence number (the position of its future in submission
order), so that a forced per-chunk failure can be modelled; `_compress_chunk`
itself (line 133–137) builds a fresh `zlib.compressobj` per chunk, so each
frame depends only on that chunk's payload.  Every writer operation returns
the mutated state together with `Option String`, the exception it raised
(`none` when it returned normally), mirroring a Python exception propagating
out of the method while leaving the object in its mid-operation state. -/

/-- State of `ParallelGzipWriter`.  `futures` is the pending FIFO: each entry
is the submission index and raw payload of one submitted chunk.  `sink_writes`
is the trace of `self.sink.write(...)` calls made while draining, in order.
`next_seq` counts submissions.  `max_pending` is a ghost high-water mark of
`len(self.futures)` observed immediately after the `append` in
`_flush_buffer` (line 149), instrumenting the backpressure bound. -/
structure PGzip where
  chunk_size : Nat
  workers : Nat
  buffer : Bytes := []
  futures : List (Nat × Bytes) := []
  next_seq : Nat := 0
  sink_writes : List Bytes := []
  max_pending : Nat := 0
deriving Repr, DecidableEq

/-- A fresh writer: `__init__` (lines 124–131) with `chunk_size` and worker
count kept as parameters (the source fixes `chunk_size = 2 * 1024 * 1024` and
defaults `workers` to `os.cpu_count()`). -/
def PGzip.mk0 (chunk_size workers : Nat) : PGzip :=
  { chunk_size := chunk_size, workers := workers }

/-- The loop body of `_drain_futures` (lines 154–157) over a futures list:
pop from the head, block on its result, write it to the sink; a raised
exception stops the loop, leaving the remaining futures pending. -/
def drainGo (compress : Nat → Bytes → Except String Bytes)
    (sink_writes : List Bytes) :
    List (Nat × Bytes) → List Bytes × List (Nat × Bytes) × Option String
  | [] => (sink_writes, [], none)
  | (i, d) :: rest =>
    match compress i d with
    | Except.ok r => drainGo compress (sink_writes ++ [r]) rest
    | Except.error e => (sink_writes, rest, some e)

/-- `_drain_futures` (lines 154–157). -/
def PGzip.drainFutures (compress : Nat → Bytes → Except String Bytes)
    (s : PGzip) : PGzip × Option String :=
  let (sw, fut, err) := drainGo compress s.sink_writes s.futures
  ({ s with sink_writes := sw, futures := fut }, err)

/-- `_flush_buffer` (lines 143–152): take the buffer's content, reset the
buffer, skip empty data, submit the chunk, and drain when the pending count
exceeds `workers * 2`. -/
def PGzip.flushBuffer (compress : Nat → Bytes → Except String Bytes)
    (s : PGzip) : PGzip × Option String :=
  let data := s.buffer
  let s1 := { s with buffer := [] }
  if data = [] then (s1, none)
  else
    let s2 := { s1 with
      futures := s1.futures ++ [(s1.next_seq, data)]
      next_seq := s1.next_seq + 1 }
    let s3 := { s2 with max_pending := max s2.max_pending s2.futures.length }
    if s3.workers * 2 < s3.futures.length then s3.drainFutures compress
    else (s3, none)

/-- `write` (lines 139–141): append to the buffer and flush once it has
reached the chunk size. -/
def PGzip.write (compress : Nat → Bytes → Except String Bytes)
    (s : PGzip) (data : Bytes) : PGzip × Option String :=
  let s1 := { s with buffer := s.buffer ++ data }
  if s1.chunk_size ≤ s1.buffer.length then s1.flushBuffer compress
  else (s1, none)

/-- `close` (lines 159–163), up to the sink: flush the final partial chunk and
drain everything.  (`executor.shutdown()` and `self.sink.close()` have no
effect on the writer's own state; the sink side is applied by `pipelineRun`.)
A raised exception aborts the remaining steps. -/
def PGzip.close (compress : Nat → Bytes → Except String Bytes)
    (s : PGzip) : PGzip × Option String :=
  match s.flushBuffer compress with
  | (s1, some e) => (s1, some e)
  | (s1, none) => s1.drainFutures compress

/-- Issue a sequence of `write` calls; the first raised exception propagates
to the caller and stops the run. -/
def PGzip.runWrites (compress : Nat → Bytes → Except String Bytes) :
    PGzip → List Bytes → PGzip × Option String
  | s, [] => (s, none)
  | s, d :: ds =>
    match s.write compress d with
    | (s1, some e) => (s1, some e)
    | (s1, none) => PGzip.runWrites compress s1 ds

/-- A whole writer lifetime: construction, a sequence of `write` calls, then
`close`. -/
def PGzip.run (compress : Nat → Bytes → Except String Bytes)
    (chunk_size workers : Nat) (ws : List Bytes) : PGzip × Option String :=
  match PGzip.runWrites compress (PGzip.mk0 chunk_size workers) ws with
  | (s1, some e) => (s1, some e)
  | (s1, none) => s1.close compress

/-! ## The chunking of the input stream, in the spec's words

The spec describes the serial reference behaviour: incoming bytes accumulate
in a buffer; once the buffer has reached the chunk size its full content
becomes one chunk; on finalization a non-empty partial buffer becomes one
final chunk; empty flushes produce no chunk.  `serialCompression` is the
sequential, non-parallel compression of those chunks in formation order. -/

/-- One `write` call's effect on `(chunks formed so far, buffer)`. -/
def chunkStep (cs : Nat) (acc : List Bytes × Bytes) (d : Bytes) :
    List Bytes × Bytes :=
  let b := acc.2 ++ d
  if b ≠ [] ∧ cs ≤ b.length then (acc.1 ++ [b], []) else (acc.1, b)

/-- The chunks formed from a sequence of writes, in formation order,
including the final partial chunk flushed at close. -/
def chunksOf (cs : Nat) (ws : List Bytes) : List Bytes :=
  let p := ws.foldl (chunkStep cs) ([], [])
  if p.2 = [] then p.1 else p.1 ++ [p.2]

/-- The serial reference: each chunk compressed independently, results in
formation order. -/
def serialCompression (c : Bytes → Bytes) (cs : Nat) (ws : List Bytes) :
    List Bytes :=
  (chunksOf cs ws).map c

/-- A total (never-failing) compressor, ignoring the submission index. -/
def totalC (c : Bytes → Bytes) : Nat → Bytes → Except String Bytes :=
  fun _ d => Except.ok (c d)

/-- The remainder of a writer lifetime from a mid-run state: the remaining
`write` calls, then `close`; `PGzip.run f cs W ws = PGzip.runFrom f
(PGzip.mk0 cs W) ws`. -/
def PGzip.runFrom (compress : Nat → Bytes → Except String Bytes)
    (s : PGzip) (ws : List Bytes) : PGzip × Option String :=
  match PGzip.runWrites compress s ws with
  | (s1, some e) => (s1, some e)
  | (s1, none) => s1.close compress

/-- The state right after `_flush_buffer` submits the buffered chunk
(line 148–149): the chunk joins the tail of the pending FIFO with the next
submission index, and the pending high-water mark is sampled. -/
def PGzip.submitState (s : PGzip) : PGzip :=
  { s with
    buffer := []
    futures := s.futures ++ [(s.next_seq, s.buffer)]
    next_seq := s.next_seq + 1
    max_pending := max s.max_pending (s.futures.length + 1) }

/-- All chunks of a lifetime, continued from a mid-run chunking state
`(acc, buf)`: `chunksOf cs ws = chunksFin cs [] [] ws`. -/
def chunksFin (cs : Nat) (acc : List Bytes) (buf : Bytes)
    (ws : List Bytes) : List Bytes :=
  let p := ws.foldl (chunkStep cs) (acc, buf)
  if p.2 = [] then p.1 else p.1 ++ [p.2]

/-! ## MultiPartFileReader (src/archivedir.py lines 365–416)

`files` holds the contents of the discovered segment files in sorted order;
`current_idx` and `pos` are the open file's index and read position (a real
file handle's position).  Buffer-size auto-tuning (lines 372–383) only sets
`buffering` and is performance-only, so it is not part of the state. -/

/-- Reader state. -/
structure MultiPartFileReader where
  files : List Bytes
  current_idx : Nat := 0
  pos : Nat := 0
deriving Repr, DecidableEq

/-- `__init__` (lines 366–385): fails with `FileNotFoundError` when the
pattern matched no files, otherwise opens the first file. -/
def MultiPartFileReader.make (files : List Bytes) :
    Except String MultiPartFileReader :=
  if files = [] then Except.error "No split files found"
  else Except.ok { files := files }

/-- The bytes remaining in the logical stream: the rest of the current file
followed by every later file. -/
def MultiPartFileReader.remainingBytes (r : MultiPartFileReader) : Bytes :=
  ((r.files.getD r.current_idx []).drop r.pos) ++
    (r.files.drop (r.current_idx + 1)).flatten

/-- `read(-1)` (lines 388–401): read the rest of the current file; advance to
the next file while one remains; join the collected chunks. -/
def MultiPartFileReader.readAll (r : MultiPartFileReader) :
    Bytes × MultiPartFileReader :=
  if h : r.current_idx < r.files.length then
    let cf := r.files.get ⟨r.current_idx, h⟩
    let chunk := cf.drop r.pos
    if r.current_idx < r.files.length - 1 then
      let r1 : MultiPartFileReader :=
        { r with current_idx := r.current_idx + 1, pos := 0 }
      let p := r1.readAll
      (chunk ++ p.1, p.2)
    else
      (chunk, { r with pos := cf.length })
  else ([], r)
termination_by r.files.length - r.current_idx

/-- The `while` loop of the sized branch of `read` (lines 405–411): while
fewer than `size` bytes have been accumulated and more files remain, advance
to the next file and read the shortfall from it. -/
def MultiPartFileReader.readLoop (size : Nat) (r : MultiPartFileReader)
    (data : Bytes) : Bytes × MultiPartFileReader :=
  if _h : data.length < size ∧ r.current_idx < r.files.length - 1 then
    let r1 : MultiPartFileReader :=
      { r with current_idx := r.current_idx + 1, pos := 0 }
    let cf := r1.files.getD r1.current_idx []
    let addl := cf.take (size - data.length)
    let r2 : MultiPartFileReader := { r1 with pos := addl.length }
    MultiPartFileReader.readLoop size r2 (data ++ addl)
  else (data, r)
termination_by r.files.length - r.current_idx

/-- The sized branch of `read` (lines 403–412): read up to `size` bytes from
the current file, then loop across file boundaries until `size` bytes have
accumulated or every file is exhausted. -/
def MultiPartFileReader.readSized (r : MultiPartFileReader) (size : Nat) :
    Bytes × MultiPartFileReader :=
  let cf := r.files.getD r.current_idx []
  let data := (cf.drop r.pos).take size
  let r1 : MultiPartFileReader := { r with pos := r.pos + data.length }
  r1.readLoop size data

/-- `read` (lines 387–412): dispatch on `size == -1`.  (Python's file `read`
treats other negative sizes as "read all"; the claims only exercise
`size = -1` and `size ≥ 0`, so other negatives are taken through the sized
branch at 0.) -/
def MultiPartFileReader.read (r : MultiPartFileReader) (size : Int) :
    Bytes × MultiPartFileReader :=
  if size = -1 then r.readAll else r.readSized size.toNat

/-! ## The composed backup pipeline

`ParallelGzipWriter` writing into a `SplitFileWriter`: the compressor's sink
write trace is replayed into the sink, then (as `ParallelGzipWriter.close`
line 163 does) the sink is closed.  With a failing compressor the pipeline
aborts before `sink.close()`, so the composition is only defined for a total
compressor here; `none` signals `SplitFileWriter.write` fuel exhaustion
(possible only for `split_size = 0`). -/

/-- Run the whole backup pipeline: compress writes `ws` through a
`ParallelGzipWriter` over a fresh `SplitFileWriter`, then close. -/
def pipelineRun (c : Bytes → Bytes) (chunk_size workers split_size : Nat)
    (s3 : Bool) (ws : List Bytes) : Option SplitFileWriter :=
  match PGzip.run (totalC c) chunk_size workers ws with
  | (_, some _) => none
  | (g, none) => (SplitFileWriter.runWrites (SplitFileWriter.mk0 split_size s3)
      g.sink_writes).map SplitFileWriter.close

/-! ## Auxiliary definitions for the statements and proofs -/

/-- Well-formedness of a sink state, maintained by every operation: the byte
counter never exceeds the capacity, it equals the open part's length, and
every part closed by a rollover holds exactly `split_size` bytes. -/
def SplitFileWriter.wfState (w : SplitFileWriter) : Prop :=
  w.bytes_written_current ≤ w.split_size ∧
  (∀ c, w.cur = some c → c.length = w.bytes_written_current) ∧
  (w.cur = none → w.bytes_written_current = 0) ∧
  (∀ p ∈ w.closed_parts, p.length = w.split_size)

/-- Well-formedness of a reader state: the current index is in range and the
read position does not pass the end of the current file. -/
def MultiPartFileReader.wfState (r : MultiPartFileReader) : Prop :=
  r.current_idx < r.files.length ∧
  r.pos ≤ (r.files.getD r.current_idx []).length

/-- Pair each list element with its index, starting at `a` — the shape of the
pending FIFO when the chunks with submission numbers `a, a+1, …` are
pending. -/
def idxFrom : Nat → List Bytes → List (Nat × Bytes)
  | _, [] => []
  | a, d :: ds => (a, d) :: idxFrom (a + 1) ds

/-- A concrete concatenable frame codec used to instantiate the round-trip
theorem: a frame is the chunk prefixed with its length. -/
def frameC (b : Bytes) : Bytes := b.length :: b

/-- Decoder for a concatenation of `frameC` frames. -/
def deframe : Bytes → Bytes
  | [] => []
  | n :: rest => rest.take n ++ deframe (rest.drop n)
termination_by b => b.length
decreasing_by simp; omega

/-! ## Lemmas about SplitFileWriter -/

theorem SplitFileWriter.openNext_cur (w : SplitFileWriter) :
    w.openNext.cur = some [] := rfl

theorem SplitFileWriter.openNext_bwc (w : SplitFileWriter) :
    w.openNext.bytes_written_current = 0 := rfl

theorem SplitFileWriter.openNext_split_size (w : SplitFileWriter) :
    w.openNext.split_size = w.split_size := by
  cases h : w.cur <;> simp [SplitFileWriter.openNext, h]

theorem SplitFileWriter.openNext_s3 (w : SplitFileWriter) :
    w.openNext.s3_bucket = w.s3_bucket := by
  cases h : w.cur <;> simp [SplitFileWriter.openNext, h]

theorem SplitFileWriter.openNext_total (w : SplitFileWriter) :
    w.openNext.total_bytes_written = w.total_bytes_written := by
  cases h : w.cur <;> simp [SplitFileWriter.openNext, h]

theorem SplitFileWriter.openNext_rollover (w : SplitFileWriter) :
    w.openNext.rollover_bytes = w.rollover_bytes := by
  cases h : w.cur <;> simp [SplitFileWriter.openNext, h]

theorem SplitFileWriter.openNext_closed_parts (w : SplitFileWriter) :
    w.openNext.closed_parts =
      w.closed_parts ++ (match w.cur with | some c => [c] | none => []) := by
  cases h : w.cur <;> simp [SplitFileWriter.openNext, h]

theorem SplitFileWriter.allParts_flatten_openNext (w : SplitFileWriter) :
    w.openNext.allParts.flatten = w.allParts.flatten := by
  cases h : w.cur <;>
    simp [SplitFileWriter.allParts, SplitFileWriter.openNext_closed_parts,
      SplitFileWriter.openNext_cur, h]

theorem SplitFileWriter.wfState_mk0 (ss : Nat) (s3 : Bool) :
    (SplitFileWriter.mk0 ss s3).wfState := by
  refine ⟨Nat.zero_le _, ?_, fun _ => rfl, ?_⟩ <;>
    simp [SplitFileWriter.mk0, SplitFileWriter.wfState]

/-- Opening the first part (no part yet open) preserves well-formedness:
nothing is closed, and the fresh part is empty. -/
theorem SplitFileWriter.wfState_openNext_none (w : SplitFileWriter)
    (hwf : w.wfState) (hnone : w.cur = none) : w.openNext.wfState := by
  refine ⟨by simp [SplitFileWriter.openNext_bwc], ?_, by simp [SplitFileWriter.openNext_cur], ?_⟩
  · intro c hc
    rw [SplitFileWriter.openNext_cur] at hc
    cases hc; simp [SplitFileWriter.openNext_bwc]
  · intro p hp
    rw [SplitFileWriter.openNext_closed_parts, hnone] at hp
    simp only [List.append_nil] at hp
    rw [SplitFileWriter.openNext_split_size]
    exact hwf.2.2.2 p hp

/-- Full specification of a single fuelled `write` from a state with an open
part: with positive capacity and enough fuel it succeeds, preserves
well-formedness and configuration, leaves a part open, appends exactly
`data` to the stored byte stream, and advances
`total_bytes_written + rollover_bytes` by `data.length`. -/
theorem SplitFileWriter.writeGo_spec :
    ∀ (fuel : Nat) (w : SplitFileWriter) (data : Bytes), w.wfState →
    0 < w.split_size → w.cur.isSome = true →
    data.length +
      (if w.split_size ≤ w.bytes_written_current then 2 else 1) ≤ fuel →
    ∃ w', SplitFileWriter.writeGo fuel w data = some w' ∧
      w'.wfState ∧ w'.split_size = w.split_size ∧
      w'.s3_bucket = w.s3_bucket ∧ w'.cur.isSome = true ∧
      w'.allParts.flatten = w.allParts.flatten ++ data ∧
      w'.total_bytes_written + w'.rollover_bytes =
        w.total_bytes_written + w.rollover_bytes + data.length := by
  intro fuel
  induction fuel with
  | zero =>
    intro w data _ _ _ hfuel
    exfalso; split at hfuel <;> omega
  | succ n ih =>
    intro w data hwf hss hcur hfuel
    obtain ⟨c, hc⟩ := Option.isSome_iff_exists.mp hcur
    obtain ⟨hble, hclen, -, hclosed⟩ := hwf
    have hcl : c.length = w.bytes_written_current := hclen c hc
    simp only [SplitFileWriter.writeGo, hc, Option.isSome_some, if_true,
      Option.getD_some]
    by_cases hsplit : w.split_size < w.bytes_written_current + data.length
    · rw [if_pos hsplit]
      have hrem : w.split_size - w.bytes_written_current < data.length := by
        omega
      -- the part just closed was topped up to exactly `split_size` bytes
      have hlen_new :
          (c ++ data.take (w.split_size - w.bytes_written_current)).length =
            w.split_size := by
        simp [List.length_take]
        omega
      obtain ⟨w', heq, hwf', hsz', hs3', hcur', hflat', htot'⟩ :=
        ih ({ w with
              cur := some (c ++ data.take
                (w.split_size - w.bytes_written_current))
              rollover_bytes := w.rollover_bytes +
                (w.split_size - w.bytes_written_current) }).openNext
          (data.drop (w.split_size - w.bytes_written_current))
          (by
            refine ⟨by simp [SplitFileWriter.openNext_bwc], ?_, by simp [SplitFileWriter.openNext_cur], ?_⟩
            · intro c' hc'
              rw [SplitFileWriter.openNext_cur] at hc'
              cases hc'; simp [SplitFileWriter.openNext_bwc]
            · intro p hp
              rw [SplitFileWriter.openNext_closed_parts] at hp
              rw [SplitFileWriter.openNext_split_size]
              simp only at hp ⊢
              rcases List.mem_append.mp hp with h | h
              · exact hclosed p h
              · simp only [List.mem_singleton] at h
                rw [h]; exact hlen_new)
          (by rw [SplitFileWriter.openNext_split_size]; exact hss)
          (by rw [SplitFileWriter.openNext_cur]; rfl)
          (by
            rw [SplitFileWriter.openNext_split_size,
              SplitFileWriter.openNext_bwc]
            simp only [List.length_drop]
            rw [if_neg (by omega)]
            split at hfuel <;> omega)
      refine ⟨w', heq, hwf', ?_, ?_, hcur', ?_, ?_⟩
      · rw [hsz', SplitFileWriter.openNext_split_size]
      · rw [hs3', SplitFileWriter.openNext_s3]
      · rw [hflat', SplitFileWriter.allParts_flatten_openNext]
        simp only [SplitFileWriter.allParts, hc, List.flatten_append]
        simp [List.append_assoc]
      · rw [htot', SplitFileWriter.openNext_total,
          SplitFileWriter.openNext_rollover]
        simp only [List.length_drop]
        omega
    · rw [if_neg hsplit]
      refine ⟨_, rfl, ⟨by simp; omega, ?_, by simp, ?_⟩, rfl, rfl, rfl, ?_, ?_⟩
      · intro c' hc'
        simp only [Option.some.injEq] at hc'
        simp [← hc', hcl]
      · intro p hp
        exact hclosed p hp
      · simp only [SplitFileWriter.allParts, hc, List.flatten_append]
        simp [List.append_assoc]
      · simp; omega

/-- When no part is open yet, `write` first opens one: the fuelled body on
`w` agrees with the fuelled body on `w.openNext`. -/
theorem SplitFileWriter.writeGo_norm (fuel : Nat) (w : SplitFileWriter)
    (data : Bytes) (hnone : w.cur = none) :
    SplitFileWriter.writeGo (fuel + 1) w data =
      SplitFileWriter.writeGo (fuel + 1) w.openNext data := by
  conv_lhs => rw [SplitFileWriter.writeGo]
  conv_rhs => rw [SplitFileWriter.writeGo]
  simp only [hnone, SplitFileWriter.openNext_cur, Option.isSome_none,
    Option.isSome_some, Bool.false_eq_true, if_false, if_true]

/-- Specification of `SplitFileWriter.write` from any well-formed state. -/
theorem SplitFileWriter.write_spec (w : SplitFileWriter) (data : Bytes)
    (hwf : w.wfState) (hss : 0 < w.split_size) :
    ∃ w', w.write data = some w' ∧
      w'.wfState ∧ w'.split_size = w.split_size ∧
      w'.s3_bucket = w.s3_bucket ∧ w'.cur.isSome = true ∧
      w'.allParts.flatten = w.allParts.flatten ++ data ∧
      w'.total_bytes_written + w'.rollover_bytes =
        w.total_bytes_written + w.rollover_bytes + data.length := by
  by_cases hcur : w.cur.isSome = true
  · exact SplitFileWriter.writeGo_spec (data.length + 2) w data hwf hss hcur
      (by split <;> omega)
  · have hnone : w.cur = none := by
      cases h : w.cur <;> simp [h] at hcur ⊢
    rw [SplitFileWriter.write, show data.length + 2 = (data.length + 1) + 1
      from rfl, SplitFileWriter.writeGo_norm _ _ _ hnone]
    obtain ⟨w', heq, hwf', hsz', hs3', hcur', hflat', htot'⟩ :=
      SplitFileWriter.writeGo_spec (data.length + 2) w.openNext data
        (SplitFileWriter.wfState_openNext_none w hwf hnone)
        (by rw [SplitFileWriter.openNext_split_size]; exact hss)
        (by rw [SplitFileWriter.openNext_cur]; rfl)
        (by
          rw [SplitFileWriter.openNext_split_size,
            SplitFileWriter.openNext_bwc]
          rw [if_neg (by omega)]; omega)
    refine ⟨w', heq, hwf', ?_, ?_, hcur', ?_, ?_⟩
    · rw [hsz', SplitFileWriter.openNext_split_size]
    · rw [hs3', SplitFileWriter.openNext_s3]
    · rw [hflat', SplitFileWriter.allParts_flatten_openNext]
    · rw [htot', SplitFileWriter.openNext_total,
        SplitFileWriter.openNext_rollover]

/-- Specification of a whole sequence of sink writes. -/
theorem SplitFileWriter.runWrites_spec :
    ∀ (ws : List Bytes) (w : SplitFileWriter), w.wfState →
    0 < w.split_size →
    ∃ w', SplitFileWriter.runWrites w ws = some w' ∧
      w'.wfState ∧ w'.split_size = w.split_size ∧
      w'.s3_bucket = w.s3_bucket ∧
      (w'.cur.isSome = true ∨ (ws = [] ∧ w' = w)) ∧
      w'.allParts.flatten = w.allParts.flatten ++ ws.flatten ∧
      w'.total_bytes_written + w'.rollover_bytes =
        w.total_bytes_written + w.rollover_bytes +
          (ws.map List.length).sum := by
  intro ws
  induction ws with
  | nil =>
    intro w hwf hss
    exact ⟨w, rfl, hwf, rfl, rfl, Or.inr ⟨rfl, rfl⟩, by simp, by simp⟩
  | cons d ds ih =>
    intro w hwf hss
    obtain ⟨w1, h1, hwf1, hsz1, hs31, hcur1, hflat1, htot1⟩ :=
      SplitFileWriter.write_spec w d hwf hss
    obtain ⟨w2, h2, hwf2, hsz2, hs32, hcur2, hflat2, htot2⟩ :=
      ih w1 hwf1 (hsz1 ▸ hss)
    refine ⟨w2, ?_, hwf2, hsz2.trans hsz1, hs32.trans hs31, ?_, ?_, ?_⟩
    · simp only [SplitFileWriter.runWrites, h1, Option.bind_eq_bind,
        Option.some_bind]
      exact h2
    · rcases hcur2 with h | ⟨-, rfl⟩
      · exact Or.inl h
      · exact Or.inl hcur1
    · rw [hflat2, hflat1]
      simp [List.append_assoc]
    · rw [htot2, htot1]
      simp; omega

/-! ## Lemmas about ParallelGzipWriter with a total compressor -/

theorem drainGo_total (c : Bytes → Bytes) :
    ∀ (l : List (Nat × Bytes)) (sw : List Bytes),
    drainGo (totalC c) sw l =
      (sw ++ l.map (fun p => c p.2), [], none) := by
  intro l
  induction l with
  | nil => intro sw; simp [drainGo]
  | cons p rest ih =>
    intro sw
    obtain ⟨i, d⟩ := p
    simp [drainGo, totalC, ih]

theorem PGzip.drainFutures_total (c : Bytes → Bytes) (s : PGzip) :
    s.drainFutures (totalC c) =
      ({ s with
          sink_writes := s.sink_writes ++ s.futures.map (fun p => c p.2)
          futures := [] }, none) := by
  simp [PGzip.drainFutures, drainGo_total]

theorem PGzip.flushBuffer_total (c : Bytes → Bytes) (s : PGzip) :
    (s.flushBuffer (totalC c)).2 = none ∧
    (s.flushBuffer (totalC c)).1.sink_writes ++
        (s.flushBuffer (totalC c)).1.futures.map (fun p => c p.2) =
      s.sink_writes ++ s.futures.map (fun p => c p.2) ++
        (if s.buffer = [] then [] else [c s.buffer]) ∧
    (s.flushBuffer (totalC c)).1.buffer = [] ∧
    (s.flushBuffer (totalC c)).1.chunk_size = s.chunk_size ∧
    (s.flushBuffer (totalC c)).1.workers = s.workers ∧
    (s.flushBuffer (totalC c)).1.futures.length ≤
      max s.futures.length (2 * s.workers) ∧
    (s.flushBuffer (totalC c)).1.max_pending ≤
      max s.max_pending (s.futures.length + 1) := by
  by_cases hb : s.buffer = []
  · simp [PGzip.flushBuffer, hb]
  · by_cases hthr : s.workers * 2 < s.futures.length + 1
    · simp [PGzip.flushBuffer, hb, hthr, PGzip.drainFutures_total]
    · simp [PGzip.flushBuffer, hb, hthr]
      omega

theorem PGzip.write_total (c : Bytes → Bytes) (s : PGzip) (d : Bytes) :
    (s.write (totalC c) d).2 = none ∧
    (s.write (totalC c) d).1.sink_writes ++
        (s.write (totalC c) d).1.futures.map (fun p => c p.2) =
      s.sink_writes ++ s.futures.map (fun p => c p.2) ++
        (chunkStep s.chunk_size ([], s.buffer) d).1.map c ∧
    (s.write (totalC c) d).1.buffer =
      (chunkStep s.chunk_size ([], s.buffer) d).2 ∧
    (s.write (totalC c) d).1.chunk_size = s.chunk_size ∧
    (s.write (totalC c) d).1.workers = s.workers ∧
    (s.write (totalC c) d).1.futures.length ≤
      max s.futures.length (2 * s.workers) ∧
    (s.write (totalC c) d).1.max_pending ≤
      max s.max_pending (s.futures.length + 1) := by
  by_cases hfl : s.chunk_size ≤ s.buffer.length + d.length
  · have := PGzip.flushBuffer_total c { s with buffer := s.buffer ++ d }
    simp only [PGzip.write, List.length_append, hfl, if_true] at this ⊢
    simp only [chunkStep]
    by_cases hbd : s.buffer ++ d = []
    · simpa [hbd] using this
    · simpa [hbd, hfl] using this
  · simp [PGzip.write, List.length_append, hfl, chunkStep]

theorem chunkStep_acc (cs : Nat) (a : List Bytes) (b d : Bytes) :
    chunkStep cs (a, b) d =
      (a ++ (chunkStep cs ([], b) d).1, (chunkStep cs ([], b) d).2) := by
  simp only [chunkStep]
  split <;> simp

theorem chunkStep_foldl_acc (cs : Nat) :
    ∀ (ws : List Bytes) (a : List Bytes) (b : Bytes),
    ws.foldl (chunkStep cs) (a, b) =
      (a ++ (ws.foldl (chunkStep cs) ([], b)).1,
        (ws.foldl (chunkStep cs) ([], b)).2) := by
  intro ws
  induction ws with
  | nil => intro a b; simp
  | cons d ds ih =>
    intro a b
    simp only [List.foldl_cons]
    rw [chunkStep_acc cs a b d, ih, ih ((chunkStep cs ([], b) d).1)]
    simp [List.append_assoc]

theorem PGzip.runWrites_total (c : Bytes → Bytes) :
    ∀ (ws : List Bytes) (s : PGzip),
    (PGzip.runWrites (totalC c) s ws).2 = none ∧
    (PGzip.runWrites (totalC c) s ws).1.sink_writes ++
        (PGzip.runWrites (totalC c) s ws).1.futures.map (fun p => c p.2) =
      s.sink_writes ++ s.futures.map (fun p => c p.2) ++
        (ws.foldl (chunkStep s.chunk_size) ([], s.buffer)).1.map c ∧
    (PGzip.runWrites (totalC c) s ws).1.buffer =
      (ws.foldl (chunkStep s.chunk_size) ([], s.buffer)).2 ∧
    (PGzip.runWrites (totalC c) s ws).1.chunk_size = s.chunk_size ∧
    (PGzip.runWrites (totalC c) s ws).1.workers = s.workers ∧
    (s.futures.length ≤ 2 * s.workers →
      (PGzip.runWrites (totalC c) s ws).1.futures.length ≤ 2 * s.workers) ∧
    (s.futures.length ≤ 2 * s.workers →
      s.max_pending ≤ 2 * s.workers + 1 →
      (PGzip.runWrites (totalC c) s ws).1.max_pending ≤
        2 * s.workers + 1) := by
  intro ws
  induction ws with
  | nil => intro s; exact ⟨rfl, by simp [PGzip.runWrites],
      by simp [PGzip.runWrites], rfl, rfl, fun h => h, fun _ h => h⟩
  | cons d ds ih =>
    intro s
    obtain ⟨hw0, hw1, hw2, hw3, hw4, hw5, hw6⟩ := PGzip.write_total c s d
    have hpair : s.write (totalC c) d = ((s.write (totalC c) d).1, none) := by
      conv_lhs => rw [← Prod.mk.eta (p := s.write (totalC c) d)]
      rw [hw0]
    obtain ⟨hr0, hr1, hr2, hr3, hr4, hr5, hr6⟩ :=
      ih ((s.write (totalC c) d).1)
    have hrun : PGzip.runWrites (totalC c) s (d :: ds) =
        PGzip.runWrites (totalC c) ((s.write (totalC c) d).1) ds := by
      rw [PGzip.runWrites, hpair]
    have hfold := chunkStep_foldl_acc s.chunk_size ds
      ((chunkStep s.chunk_size ([], s.buffer) d).1)
      ((chunkStep s.chunk_size ([], s.buffer) d).2)
    refine ⟨by rw [hrun]; exact hr0, ?_, ?_, ?_, ?_, ?_, ?_⟩
    · rw [hrun, hr1, hw1, hw2, hw3]
      simp only [List.foldl_cons]
      conv_rhs => rw [← Prod.mk.eta
        (p := chunkStep s.chunk_size ([], s.buffer) d), hfold]
      simp [List.append_assoc]
    · rw [hrun, hr2, hw2, hw3]
      simp only [List.foldl_cons]
      conv_rhs => rw [← Prod.mk.eta
        (p := chunkStep s.chunk_size ([], s.buffer) d), hfold]
    · rw [hrun, hr3, hw3]
    · rw [hrun, hr4, hw4]
    · intro hle
      rw [hrun]
      rw [hw4] at hr5
      exact hr5 (le_trans hw5 (by omega))
    · intro hle hmax
      rw [hrun]
      rw [hw4] at hr6
      exact hr6 (le_trans hw5 (by omega)) (le_trans hw6 (by omega))

theorem PGzip.close_total (c : Bytes → Bytes) (s : PGzip) :
    (s.close (totalC c)).2 = none ∧
    (s.close (totalC c)).1.sink_writes =
      s.sink_writes ++ s.futures.map (fun p => c p.2) ++
        (if s.buffer = [] then [] else [c s.buffer]) ∧
    (s.close (totalC c)).1.futures = [] ∧
    (s.close (totalC c)).1.max_pending ≤
      max s.max_pending (s.futures.length + 1) := by
  obtain ⟨hf0, hf1, hf2, hf3, hf4, hf5, hf6⟩ := PGzip.flushBuffer_total c s
  have hpair : s.flushBuffer (totalC c) =
      ((s.flushBuffer (totalC c)).1, none) := by
    conv_lhs => rw [← Prod.mk.eta (p := s.flushBuffer (totalC c))]
    rw [hf0]
  have hclose : s.close (totalC c) =
      ((s.flushBuffer (totalC c)).1).drainFutures (totalC c) := by
    rw [PGzip.close, hpair]
  rw [hclose, PGzip.drainFutures_total]
  exact ⟨rfl, hf1, rfl, hf6⟩

/-- The whole lifetime with a total compressor: no exception, the sink
receives exactly the serial compression of the formed chunks, the pending
FIFO ends empty, and the pending count high-water mark stays within
`2 * workers + 1`. -/
theorem PGzip.run_total (c : Bytes → Bytes) (cs W : Nat) (ws : List Bytes) :
    (PGzip.run (totalC c) cs W ws).2 = none ∧
    (PGzip.run (totalC c) cs W ws).1.sink_writes =
      serialCompression c cs ws ∧
    (PGzip.run (totalC c) cs W ws).1.futures = [] ∧
    (PGzip.run (totalC c) cs W ws).1.max_pending ≤ 2 * W + 1 := by
  obtain ⟨hr0, hr1, hr2, hr3, hr4, hr5, hr6⟩ :=
    PGzip.runWrites_total c ws (PGzip.mk0 cs W)
  have hmk : (PGzip.mk0 cs W).chunk_size = cs := rfl
  have hmkW : (PGzip.mk0 cs W).workers = W := rfl
  have hpair : PGzip.runWrites (totalC c) (PGzip.mk0 cs W) ws =
      ((PGzip.runWrites (totalC c) (PGzip.mk0 cs W) ws).1, none) := by
    conv_lhs => rw [← Prod.mk.eta
      (p := PGzip.runWrites (totalC c) (PGzip.mk0 cs W) ws)]
    rw [hr0]
  have hrun : PGzip.run (totalC c) cs W ws =
      ((PGzip.runWrites (totalC c) (PGzip.mk0 cs W) ws).1).close
        (totalC c) := by
    rw [PGzip.run, hpair]
  obtain ⟨hc0, hc1, hc2, hc3⟩ :=
    PGzip.close_total c ((PGzip.runWrites (totalC c) (PGzip.mk0 cs W) ws).1)
  have hsw : (PGzip.runWrites (totalC c) (PGzip.mk0 cs W) ws).1.sink_writes
      ++ ((PGzip.runWrites (totalC c) (PGzip.mk0 cs W) ws).1.futures.map
        (fun p => c p.2)) =
      (ws.foldl (chunkStep cs) ([], [])).1.map c := by
    have := hr1
    rw [hmk] at this
    simpa [PGzip.mk0] using this
  refine ⟨by rw [hrun]; exact hc0, ?_, by rw [hrun]; exact hc2, ?_⟩
  · rw [hrun, hc1, hsw]
    rw [hr2, hmk]
    show _ = (chunksOf cs ws).map c
    rw [chunksOf]
    have hbuf : (ws.foldl (chunkStep cs) ([], ([] : Bytes))) =
        (ws.foldl (chunkStep cs) ([], (PGzip.mk0 cs W).buffer)) := rfl
    rw [← hbuf]
    by_cases h2 : (ws.foldl (chunkStep cs) ([], ([] : Bytes))).2 = []
    · simp [h2]
    · simp [h2]
  · rw [hrun]
    refine le_trans hc3 ?_
    have h5 := hr5 (by simp [PGzip.mk0])
    have h6 := hr6 (by simp [PGzip.mk0]) (by simp [PGzip.mk0])
    rw [hmkW] at h5 h6
    omega

/-! ## Lemmas about ParallelGzipWriter with a failing compressor -/

theorem idxFrom_append :
    ∀ (l₁ : List Bytes) (l₂ : List Bytes) (a : Nat),
    idxFrom a (l₁ ++ l₂) = idxFrom a l₁ ++ idxFrom (a + l₁.length) l₂ := by
  intro l₁
  induction l₁ with
  | nil => intro l₂ a; simp [idxFrom]
  | cons x xs ih =>
    intro l₂ a
    simp only [List.cons_append, idxFrom, List.append_eq, ih,
      List.length_cons]
    have h : a + 1 + xs.length = a + (xs.length + 1) := by omega
    rw [h]

theorem idxFrom_map_fst :
    ∀ (l : List Bytes) (a : Nat),
    (idxFrom a l).map Prod.fst = List.range' a l.length := by
  intro l
  induction l with
  | nil => intro a; simp [idxFrom]
  | cons x xs ih =>
    intro a
    simp [idxFrom, ih, List.range'_succ]

theorem mem_idxFrom :
    ∀ (l : List Bytes) (a : Nat) (p : Nat × Bytes), p ∈ idxFrom a l →
    a ≤ p.1 ∧ p.1 < a + l.length ∧ p.2 = l.getD (p.1 - a) [] := by
  intro l
  induction l with
  | nil => intro a p hp; simp [idxFrom] at hp
  | cons x xs ih =>
    intro a p hp
    simp only [idxFrom, List.mem_cons] at hp
    rcases hp with rfl | hp
    · simp
    · obtain ⟨h1, h2, h3⟩ := ih (a + 1) p hp
      refine ⟨by omega, by simp; omega, ?_⟩
      rw [h3]
      have : p.1 - a = (p.1 - (a + 1)) + 1 := by omega
      rw [this]
      rfl

theorem drainGo_ok (f : Nat → Bytes → Except String Bytes)
    (g : Nat × Bytes → Bytes) :
    ∀ (l : List (Nat × Bytes)) (sw : List Bytes),
    (∀ p ∈ l, f p.1 p.2 = Except.ok (g p)) →
    drainGo f sw l = (sw ++ l.map g, [], none) := by
  intro l
  induction l with
  | nil => intro sw _; simp [drainGo]
  | cons p rest ih =>
    intro sw hok
    obtain ⟨i, d⟩ := p
    have h1 := hok (i, d) (List.mem_cons_self _ _)
    simp only [drainGo, h1]
    rw [ih (sw ++ [g (i, d)]) (fun q hq => hok q (List.mem_cons_of_mem _ hq))]
    simp

theorem drainGo_fail (f : Nat → Bytes → Except String Bytes)
    (g : Nat × Bytes → Bytes) (e : String) :
    ∀ (l₁ : List (Nat × Bytes)) (i : Nat) (d : Bytes)
      (l₂ : List (Nat × Bytes)) (sw : List Bytes),
    (∀ p ∈ l₁, f p.1 p.2 = Except.ok (g p)) →
    f i d = Except.error e →
    drainGo f sw (l₁ ++ (i, d) :: l₂) = (sw ++ l₁.map g, l₂, some e) := by
  intro l₁
  induction l₁ with
  | nil =>
    intro i d l₂ sw _ herr
    simp [drainGo, herr]
  | cons p rest ih =>
    intro i d l₂ sw hok herr
    obtain ⟨j, b⟩ := p
    have h1 := hok (j, b) (List.mem_cons_self _ _)
    simp only [List.cons_append, drainGo, h1]
    simp only [List.append_eq]
    rw [ih i d l₂ (sw ++ [g (j, b)])
      (fun q hq => hok q (List.mem_cons_of_mem _ hq)) herr]
    simp

/-- Draining a pending FIFO that contains the failing submission `k`:
results `0..k-1` are written to the sink (completing `(range k).map r`),
then the failure surfaces. -/
theorem drain_hits_k (f : Nat → Bytes → Except String Bytes)
    (r : Nat → Bytes) (e : String) (k : Nat)
    (s : PGzip) (acc : List Bytes) (a : Nat)
    (hfut : s.futures = idxFrom a (acc.drop a))
    (hsink : s.sink_writes = (List.range a).map r)
    (hak : a ≤ k) (hk : k < acc.length)
    (hok : ∀ j, j < k → f j (acc.getD j []) = Except.ok (r j))
    (herr : f k (acc.getD k []) = Except.error e) :
    (s.drainFutures f).2 = some e ∧
    (s.drainFutures f).1.sink_writes = (List.range k).map r := by
  have hsplit : acc.drop a =
      (acc.drop a).take (k - a) ++ acc[k] :: acc.drop (k + 1) := by
    conv_lhs => rw [← List.take_append_drop (k - a) (acc.drop a)]
    congr 1
    rw [List.drop_drop]
    have h : a + (k - a) = k := by omega
    rw [h]
    exact List.drop_eq_getElem_cons hk
  have hlen₁ : ((acc.drop a).take (k - a)).length = k - a := by
    simp [List.length_take, List.length_drop]
    omega
  have hfut' : s.futures =
      idxFrom a ((acc.drop a).take (k - a)) ++
        (k, acc[k]) :: idxFrom (k + 1) (acc.drop (k + 1)) := by
    rw [hfut]
    conv_lhs => rw [hsplit]
    rw [idxFrom_append, hlen₁]
    have h1 : a + (k - a) = k := by omega
    rw [h1]
    rfl
  have hok₁ : ∀ p ∈ idxFrom a ((acc.drop a).take (k - a)),
      f p.1 p.2 = Except.ok (r p.1) := by
    intro p hp
    obtain ⟨h1, h2, h3⟩ := mem_idxFrom _ a p hp
    rw [hlen₁] at h2
    have hp1k : p.1 < k := by omega
    have hgd : ((acc.drop a).take (k - a)).getD (p.1 - a) [] =
        acc.getD p.1 [] := by
      have hlt : p.1 - a < ((acc.drop a).take (k - a)).length := by
        rw [hlen₁]; omega
      rw [List.getD_eq_getElem _ _ hlt,
        List.getD_eq_getElem _ _ (by omega : p.1 < acc.length)]
      rw [List.getElem_take, List.getElem_drop]
      congr 1
      omega
    rw [h3, hgd]
    exact hok p.1 hp1k
  have herr' : f k acc[k] = Except.error e := by
    have : acc.getD k [] = acc[k] := List.getD_eq_getElem _ _ hk
    rw [← this]
    exact herr
  have hgo := drainGo_fail f (fun p => r p.1) e
    (idxFrom a ((acc.drop a).take (k - a))) k acc[k]
    (idxFrom (k + 1) (acc.drop (k + 1))) s.sink_writes hok₁ herr'
  have hmap : (idxFrom a ((acc.drop a).take (k - a))).map
      (fun p => r p.1) = (List.range' a (k - a)).map r := by
    have h1 : (idxFrom a ((acc.drop a).take (k - a))).map (fun p => r p.1) =
        ((idxFrom a ((acc.drop a).take (k - a))).map Prod.fst).map r := by
      rw [List.map_map]
      rfl
    rw [h1, idxFrom_map_fst, hlen₁]
  constructor
  · simp only [PGzip.drainFutures, hfut', hgo]
  · simp only [PGzip.drainFutures, hfut', hgo]
    rw [hsink, hmap, ← List.map_append]
    congr 1
    rw [List.range_eq_range', List.range_eq_range']
    have h2 := List.range'_append 0 a (k - a) 1
    simp only [Nat.one_mul, Nat.zero_add] at h2
    rw [h2]
    congr 1
    omega

theorem getD_append_left (l t : List Bytes) (j : Nat) (hj : j < l.length) :
    (l ++ t).getD j [] = l.getD j [] := by
  rw [List.getD_eq_getElem _ _ (by simp; omega),
    List.getD_eq_getElem _ _ hj, List.getElem_append]
  simp [hj]

theorem range_append_map (r : Nat → Bytes) (a n : Nat) :
    (List.range a).map r ++ (List.range' a n).map r =
      (List.range (a + n)).map r := by
  rw [← List.map_append]
  congr 1
  rw [List.range_eq_range', List.range_eq_range']
  have h2 := List.range'_append 0 a n 1
  simp only [Nat.one_mul, Nat.zero_add] at h2
  rw [h2]
  congr 1
  omega

theorem idxFrom_drop_entry (l : List Bytes) (a : Nat) (p : Nat × Bytes)
    (hp : p ∈ idxFrom a (l.drop a)) :
    a ≤ p.1 ∧ p.1 < l.length ∧ p.2 = l.getD p.1 [] := by
  obtain ⟨h1, h2, h3⟩ := mem_idxFrom _ a p hp
  rw [List.length_drop] at h2
  refine ⟨h1, by omega, ?_⟩
  rw [h3]
  have hlt : p.1 - a < (l.drop a).length := by
    rw [List.length_drop]; omega
  rw [List.getD_eq_getElem _ _ hlt, List.getD_eq_getElem _ _ (by omega)]
  rw [List.getElem_drop]
  congr 1
  omega

theorem idxFrom_drop_append (acc : List Bytes) (b : Bytes) (a : Nat)
    (ha : a ≤ acc.length) :
    idxFrom a ((acc ++ [b]).drop a) =
      idxFrom a (acc.drop a) ++ [(acc.length, b)] := by
  have h0 : a - acc.length = 0 := by omega
  rw [List.drop_append_eq_append_drop, h0, List.drop_zero]
  rw [idxFrom_append, List.length_drop]
  have h1 : a + (acc.length - a) = acc.length := by omega
  rw [h1]
  rfl

theorem chunksFin_cons (cs : Nat) (acc : List Bytes) (buf d : Bytes)
    (ds : List Bytes) :
    chunksFin cs acc buf (d :: ds) =
      chunksFin cs (chunkStep cs (acc, buf) d).1
        (chunkStep cs (acc, buf) d).2 ds := by
  simp [chunksFin]

theorem chunksFin_acc (cs : Nat) (acc : List Bytes) (buf : Bytes)
    (ws : List Bytes) :
    chunksFin cs acc buf ws = acc ++ chunksFin cs [] buf ws := by
  simp only [chunksFin, chunkStep_foldl_acc cs ws acc buf]
  by_cases h : (ws.foldl (chunkStep cs) ([], buf)).2 = []
  · simp [h]
  · simp [h]

theorem PGzip.runFrom_nil (f : Nat → Bytes → Except String Bytes)
    (s : PGzip) : PGzip.runFrom f s [] = s.close f := rfl

theorem PGzip.runFrom_cons_ok (f : Nat → Bytes → Except String Bytes)
    (s s1 : PGzip) (d : Bytes) (ds : List Bytes)
    (h : s.write f d = (s1, none)) :
    PGzip.runFrom f s (d :: ds) = PGzip.runFrom f s1 ds := by
  simp [PGzip.runFrom, PGzip.runWrites, h]

theorem PGzip.runFrom_cons_err (f : Nat → Bytes → Except String Bytes)
    (s s1 : PGzip) (d : Bytes) (ds : List Bytes) (e : String)
    (h : s.write f d = (s1, some e)) :
    PGzip.runFrom f s (d :: ds) = (s1, some e) := by
  simp [PGzip.runFrom, PGzip.runWrites, h]

theorem PGzip.write_no_flush (f : Nat → Bytes → Except String Bytes)
    (s : PGzip) (d : Bytes)
    (h : ¬ s.chunk_size ≤ s.buffer.length + d.length) :
    s.write f d = ({ s with buffer := s.buffer ++ d }, none) := by
  simp [PGzip.write, List.length_append, h]

theorem PGzip.write_flush (f : Nat → Bytes → Except String Bytes)
    (s : PGzip) (d : Bytes)
    (h : s.chunk_size ≤ s.buffer.length + d.length) :
    s.write f d = ({ s with buffer := s.buffer ++ d }).flushBuffer f := by
  simp [PGzip.write, List.length_append, h]

theorem PGzip.flush_empty (f : Nat → Bytes → Except String Bytes)
    (s : PGzip) (h : s.buffer = []) :
    s.flushBuffer f = ({ s with buffer := [] }, none) := by
  simp [PGzip.flushBuffer, h]

theorem PGzip.flush_submit_no_drain (f : Nat → Bytes → Except String Bytes)
    (s : PGzip) (hb : ¬ s.buffer = [])
    (hth : ¬ s.workers * 2 < s.futures.length + 1) :
    s.flushBuffer f = (s.submitState, none) := by
  simp [PGzip.flushBuffer, hb, hth, PGzip.submitState]

theorem PGzip.flush_submit_drain (f : Nat → Bytes → Except String Bytes)
    (s : PGzip) (hb : ¬ s.buffer = [])
    (hth : s.workers * 2 < s.futures.length + 1) :
    s.flushBuffer f = s.submitState.drainFutures f := by
  simp [PGzip.flushBuffer, hb, hth, PGzip.submitState]

theorem PGzip.close_of_flush_none (f : Nat → Bytes → Except String Bytes)
    (s s1 : PGzip) (h : s.flushBuffer f = (s1, none)) :
    s.close f = s1.drainFutures f := by
  rw [PGzip.close, h]

theorem PGzip.close_of_flush_err (f : Nat → Bytes → Except String Bytes)
    (s s1 : PGzip) (e : String) (h : s.flushBuffer f = (s1, some e)) :
    s.close f = (s1, some e) := by
  rw [PGzip.close, h]

theorem PGzip.drainFutures_all_ok (f : Nat → Bytes → Except String Bytes)
    (g : Nat × Bytes → Bytes) (s : PGzip)
    (h : ∀ p ∈ s.futures, f p.1 p.2 = Except.ok (g p)) :
    s.drainFutures f =
      ({ s with
          sink_writes := s.sink_writes ++ s.futures.map g
          futures := [] }, none) := by
  simp [PGzip.drainFutures, drainGo_ok f g s.futures s.sink_writes h]

theorem pgz_pair_err (x : PGzip × Option String) (e : String)
    (h : x.2 = some e) : x = (x.1, some e) := by
  obtain ⟨x1, x2⟩ := x
  simp only at h
  rw [h]

/-- Master lemma for failure propagation: from any reachable mid-run state
(pending FIFO holding the chunks with submission numbers `a, …, acc.length-1`,
results `0..a-1` already written), if compression fails exactly at submission
`k` among the lifetime's chunks, the remaining writes followed by `close`
raise that error, with precisely the results of chunks `0..k-1` on the
sink. -/
theorem PGzip.runFrom_fail (f : Nat → Bytes → Except String Bytes)
    (r : Nat → Bytes) (e : String) (k : Nat) :
    ∀ (ws : List Bytes) (s : PGzip) (acc : List Bytes) (a : Nat),
    s.next_seq = acc.length →
    s.futures = idxFrom a (acc.drop a) →
    s.sink_writes = (List.range a).map r →
    a ≤ acc.length → a ≤ k →
    (∀ j, j < k →
      f j ((chunksFin s.chunk_size acc s.buffer ws).getD j []) =
        Except.ok (r j)) →
    k < (chunksFin s.chunk_size acc s.buffer ws).length →
    f k ((chunksFin s.chunk_size acc s.buffer ws).getD k []) =
      Except.error e →
    (PGzip.runFrom f s ws).2 = some e ∧
    (PGzip.runFrom f s ws).1.sink_writes = (List.range k).map r := by
  intro ws
  induction ws with
  | nil =>
    intro s acc a hseq hfut hsink haa hak hok hk herr
    rw [PGzip.runFrom_nil]
    by_cases hbuf : s.buffer = []
    · have hfin : chunksFin s.chunk_size acc s.buffer [] = acc := by
        simp [chunksFin, hbuf]
      rw [hfin] at hok hk herr
      rw [PGzip.close_of_flush_none f s _ (PGzip.flush_empty f s hbuf)]
      exact drain_hits_k f r e k { s with buffer := [] } acc a hfut hsink
        hak hk hok herr
    · have hfin : chunksFin s.chunk_size acc s.buffer [] =
          acc ++ [s.buffer] := by
        simp [chunksFin, hbuf]
      rw [hfin] at hok hk herr
      have hfut' : s.submitState.futures =
          idxFrom a ((acc ++ [s.buffer]).drop a) := by
        show s.futures ++ [(s.next_seq, s.buffer)] = _
        rw [idxFrom_drop_append acc s.buffer a haa, hfut, hseq]
      have hd := drain_hits_k f r e k s.submitState (acc ++ [s.buffer]) a
        hfut' hsink hak hk hok herr
      by_cases hth : s.workers * 2 < s.futures.length + 1
      · have hpair : s.submitState.drainFutures f =
            ((s.submitState.drainFutures f).1, some e) := by
          conv_lhs => rw [← Prod.mk.eta (p := s.submitState.drainFutures f)]
          rw [hd.1]
        rw [PGzip.close_of_flush_err f s _ e
          (by rw [PGzip.flush_submit_drain f s hbuf hth, hpair])]
        exact ⟨rfl, hd.2⟩
      · rw [PGzip.close_of_flush_none f s _
          (PGzip.flush_submit_no_drain f s hbuf hth)]
        exact hd
  | cons d ds ih =>
    intro s acc a hseq hfut hsink haa hak hok hk herr
    have hcfin := chunksFin_cons s.chunk_size acc s.buffer d ds
    by_cases hfl : s.chunk_size ≤ s.buffer.length + d.length
    · by_cases hbe : s.buffer ++ d = []
      · have hstep : chunkStep s.chunk_size (acc, s.buffer) d =
            (acc, s.buffer ++ d) := by
          simp [chunkStep, hbe]
        have hwr : s.write f d = ({ s with buffer := [] }, none) := by
          rw [PGzip.write_flush f s d hfl,
            PGzip.flush_empty f _ (by simpa using hbe)]
        rw [PGzip.runFrom_cons_ok f s _ d ds hwr]
        rw [hcfin, hstep] at hok hk herr
        rw [hbe] at hok hk herr
        exact ih { s with buffer := [] } acc a hseq hfut hsink haa hak
          hok hk herr
      · have hstep : chunkStep s.chunk_size (acc, s.buffer) d =
            (acc ++ [s.buffer ++ d], []) := by
          simp only [chunkStep]
          rw [if_pos ⟨hbe, by simpa [List.length_append] using hfl⟩]
        rw [hcfin, hstep] at hok hk herr
        have hwr : s.write f d =
            ({ s with buffer := s.buffer ++ d }).flushBuffer f :=
          PGzip.write_flush f s d hfl
        have hfut1 : ({ s with buffer := s.buffer ++ d }).submitState.futures
            = idxFrom a ((acc ++ [s.buffer ++ d]).drop a) := by
          show s.futures ++ [(s.next_seq, s.buffer ++ d)] = _
          rw [idxFrom_drop_append acc _ a haa, hfut, hseq]
        by_cases hth : s.workers * 2 < s.futures.length + 1
        · by_cases hkacc : k < (acc ++ [s.buffer ++ d]).length
          · have hpre := chunksFin_acc s.chunk_size
              (acc ++ [s.buffer ++ d]) [] ds
            have hok' : ∀ j, j < k →
                f j ((acc ++ [s.buffer ++ d]).getD j []) =
                  Except.ok (r j) := by
              intro j hj
              have h1 := hok j hj
              rw [hpre, getD_append_left _ _ j (by omega)] at h1
              exact h1
            have herr' : f k ((acc ++ [s.buffer ++ d]).getD k []) =
                Except.error e := by
              have h1 := herr
              rw [hpre, getD_append_left _ _ k hkacc] at h1
              exact h1
            have hd := drain_hits_k f r e k
              ({ s with buffer := s.buffer ++ d }).submitState
              (acc ++ [s.buffer ++ d]) a hfut1 hsink hak hkacc hok' herr'
            have hpair := pgz_pair_err _ e hd.1
            rw [PGzip.runFrom_cons_err f s _ d ds e (by
              rw [hwr, PGzip.flush_submit_drain f
                { s with buffer := s.buffer ++ d } hbe hth]
              exact hpair)]
            exact ⟨rfl, hd.2⟩
          · push_neg at hkacc
            have hokpend : ∀ p ∈
                ({ s with buffer := s.buffer ++ d }).submitState.futures,
                f p.1 p.2 = Except.ok (r p.1) := by
              intro p hp
              rw [hfut1] at hp
              obtain ⟨h1, h2, h3⟩ := idxFrom_drop_entry _ a p hp
              have h4 := hok p.1 (by omega)
              rw [chunksFin_acc, getD_append_left _ _ p.1 h2] at h4
              rw [h3]
              exact h4
            have hdall := PGzip.drainFutures_all_ok f (fun p => r p.1)
              ({ s with buffer := s.buffer ++ d }).submitState hokpend
            rw [PGzip.runFrom_cons_ok f s _ d ds (by
              rw [hwr, PGzip.flush_submit_drain f
                { s with buffer := s.buffer ++ d } hbe hth, hdall])]
            apply ih _ (acc ++ [s.buffer ++ d])
              ((acc ++ [s.buffer ++ d]).length)
            · show s.next_seq + 1 = _
              rw [hseq]
              simp
            · show ([] : List (Nat × Bytes)) = _
              rw [List.drop_length]
              rfl
            · show s.sink_writes ++
                (s.futures ++ [(s.next_seq, s.buffer ++ d)]).map
                  (fun p => r p.1) = _
              rw [hfut, hseq, hsink]
              have hmap1 : (idxFrom a (acc.drop a) ++
                  [(acc.length, s.buffer ++ d)]).map (fun p => r p.1) =
                  (List.range' a (acc.length - a)).map r ++ [r acc.length]
                  := by
                rw [List.map_append]
                congr 1
                rw [show (fun (p : Nat × Bytes) => r p.1) =
                  (r ∘ Prod.fst) from rfl, ← List.map_map, idxFrom_map_fst,
                  List.length_drop]
              rw [hmap1, ← List.append_assoc, range_append_map]
              have h5 : a + (acc.length - a) = acc.length := by omega
              rw [h5]
              have h6 : (acc ++ [s.buffer ++ d]).length = acc.length + 1 :=
                by simp
              rw [h6, List.range_succ, List.map_append]
              rfl
            · exact le_refl _
            · exact hkacc
            · exact hok
            · exact hk
            · exact herr
        · have hwr' : s.write f d =
              (({ s with buffer := s.buffer ++ d }).submitState, none) := by
            rw [hwr, PGzip.flush_submit_no_drain f
              { s with buffer := s.buffer ++ d } hbe hth]
          rw [PGzip.runFrom_cons_ok f s _ d ds hwr']
          apply ih _ (acc ++ [s.buffer ++ d]) a
          · show s.next_seq + 1 = _
            rw [hseq]
            simp
          · exact hfut1
          · exact hsink
          · simp; omega
          · exact hak
          · exact hok
          · exact hk
          · exact herr
    · have hwr : s.write f d = ({ s with buffer := s.buffer ++ d }, none) :=
        PGzip.write_no_flush f s d hfl
      rw [PGzip.runFrom_cons_ok f s _ d ds hwr]
      have hstep : chunkStep s.chunk_size (acc, s.buffer) d =
          (acc, s.buffer ++ d) := by
        simp only [chunkStep]
        rw [if_neg (by
          intro hcon
          exact hfl (by simpa [List.length_append] using hcon.2))]
      rw [hcfin, hstep] at hok hk herr
      exact ih { s with buffer := s.buffer ++ d } acc a hseq hfut hsink
        haa hak hok hk herr

/-! ## Lemmas about MultiPartFileReader -/

theorem flatten_drop_succ (files : List Bytes) (i : Nat)
    (h : i < files.length) :
    (files.drop i).flatten = files.getD i [] ++ (files.drop (i + 1)).flatten
    := by
  rw [List.drop_eq_getElem_cons h, List.flatten_cons,
    List.getD_eq_getElem _ _ h]

/-- Specification of `read(-1)`: it returns every remaining byte and leaves
the reader exhausted. -/
theorem MultiPartFileReader.readAll_spec :
    ∀ (n : Nat) (r : MultiPartFileReader),
    r.files.length - r.current_idx ≤ n → r.wfState →
    r.readAll.1 = r.remainingBytes ∧
    r.readAll.2.files = r.files ∧
    r.readAll.2.wfState ∧
    r.readAll.2.remainingBytes = [] := by
  intro n
  induction n with
  | zero =>
    intro r hn hwf
    exact absurd hwf.1 (by omega)
  | succ n ih =>
    intro r hn hwf
    obtain ⟨hidx, hpos⟩ := hwf
    have hgd : r.files.get ⟨r.current_idx, hidx⟩ =
        r.files.getD r.current_idx [] := by
      rw [List.get_eq_getElem, ← List.getD_eq_getElem r.files []]
    by_cases hlast : r.current_idx < r.files.length - 1
    · have heq : r.readAll =
          ((r.files.get ⟨r.current_idx, hidx⟩).drop r.pos ++
            ({ r with current_idx := r.current_idx + 1, pos := 0 }
              : MultiPartFileReader).readAll.1,
            ({ r with current_idx := r.current_idx + 1, pos := 0 }
              : MultiPartFileReader).readAll.2) := by
        conv_lhs => rw [MultiPartFileReader.readAll]
        rw [dif_pos hidx, if_pos hlast]
      have hwf1 : ({ r with current_idx := r.current_idx + 1, pos := 0 }
          : MultiPartFileReader).wfState :=
        ⟨by simp; omega, by simp⟩
      obtain ⟨ha1, ha2, ha3, ha4⟩ := ih
        { r with current_idx := r.current_idx + 1, pos := 0 }
        (by simp; omega) hwf1
      refine ⟨?_, by rw [heq]; exact ha2, by rw [heq]; exact ha3,
        by rw [heq]; exact ha4⟩
      rw [heq]
      show (r.files.get ⟨r.current_idx, hidx⟩).drop r.pos ++ _ = _
      rw [ha1, hgd]
      rw [MultiPartFileReader.remainingBytes,
        MultiPartFileReader.remainingBytes]
      simp only [List.drop_zero]
      rw [← flatten_drop_succ r.files (r.current_idx + 1) (by omega)]
    · have heq : r.readAll =
          ((r.files.get ⟨r.current_idx, hidx⟩).drop r.pos,
            { r with pos := (r.files.get ⟨r.current_idx, hidx⟩).length }) :=
          by
        conv_lhs => rw [MultiPartFileReader.readAll]
        rw [dif_pos hidx, if_neg hlast]
      have hdrop : r.files.drop (r.current_idx + 1) = [] :=
        List.drop_eq_nil_of_le (by omega)
      refine ⟨?_, by rw [heq], ?_, ?_⟩
      · rw [heq]
        show (r.files.get ⟨r.current_idx, hidx⟩).drop r.pos = _
        rw [hgd, MultiPartFileReader.remainingBytes, hdrop]
        simp
      · rw [heq]
        refine ⟨by simpa using hidx, ?_⟩
        show (r.files.get ⟨r.current_idx, hidx⟩).length ≤
          (r.files.getD r.current_idx []).length
        rw [hgd]
      · rw [heq]
        rw [MultiPartFileReader.remainingBytes]
        simp only [hdrop, List.flatten_nil, List.append_nil]
        show (r.files.getD r.current_idx []).drop
          (r.files.get ⟨r.current_idx, hidx⟩).length = []
        rw [hgd]
        exact List.drop_length _

theorem take_chain (u rest : Bytes) (m : Nat) :
    u.take m ++ (u.drop (u.take m).length ++ rest).take
      (m - (u.take m).length) = (u ++ rest).take m := by
  conv_rhs => rw [List.take_append_eq_append_take]
  by_cases h : u.length ≤ m
  · rw [List.take_of_length_le h, List.drop_length]
    simp
  · have hal : (u.take m).length = m := by rw [List.length_take]; omega
    rw [hal]
    have h0 : m - u.length = 0 := by omega
    rw [h0]
    simp

theorem drop_chain (u rest : Bytes) (m : Nat) :
    (u.drop (u.take m).length ++ rest).drop (m - (u.take m).length) =
      (u ++ rest).drop m := by
  conv_lhs => rw [List.drop_append_eq_append_drop]
  conv_rhs => rw [List.drop_append_eq_append_drop]
  rw [List.drop_drop]
  congr 1
  · congr 1
    rw [List.length_take]
    omega
  · congr 1
    rw [List.length_drop, List.length_take]
    omega

/-- Specification of the boundary-crossing loop of `read`: starting from a
state whose current file is exhausted whenever `data` is still short, it
accumulates exactly the next `size - data.length` remaining bytes. -/
theorem MultiPartFileReader.readLoop_spec :
    ∀ (n : Nat) (r : MultiPartFileReader) (data : Bytes) (size : Nat),
    r.files.length - r.current_idx ≤ n → r.wfState →
    data.length ≤ size →
    (data.length < size → r.pos = (r.files.getD r.current_idx []).length) →
    (MultiPartFileReader.readLoop size r data).1 =
      data ++ r.remainingBytes.take (size - data.length) ∧
    (MultiPartFileReader.readLoop size r data).2.files = r.files ∧
    (MultiPartFileReader.readLoop size r data).2.wfState ∧
    (MultiPartFileReader.readLoop size r data).2.remainingBytes =
      r.remainingBytes.drop (size - data.length) := by
  intro n
  induction n with
  | zero =>
    intro r data size hn hwf _ _
    exact absurd hwf.1 (by omega)
  | succ n ih =>
    intro r data size hn hwf hle hexh
    obtain ⟨hidx, hpos⟩ := hwf
    by_cases hcond : data.length < size ∧
        r.current_idx < r.files.length - 1
    · obtain ⟨hlt, hlast⟩ := hcond
      have heq : MultiPartFileReader.readLoop size r data =
          MultiPartFileReader.readLoop size
            { r with
              current_idx := r.current_idx + 1
              pos := ((r.files.getD (r.current_idx + 1) []).take
                (size - data.length)).length }
            (data ++ (r.files.getD (r.current_idx + 1) []).take
              (size - data.length)) := by
        conv_lhs => rw [MultiPartFileReader.readLoop]
        rw [dif_pos ⟨hlt, hlast⟩]
      have hpos_end : r.pos = (r.files.getD r.current_idx []).length :=
        hexh hlt
      have hrem : r.remainingBytes =
          r.files.getD (r.current_idx + 1) [] ++
            (r.files.drop (r.current_idx + 2)).flatten := by
        rw [MultiPartFileReader.remainingBytes, hpos_end, List.drop_length,
          flatten_drop_succ r.files (r.current_idx + 1) (by omega)]
        simp
      obtain ⟨hb1, hb2, hb3, hb4⟩ := ih
        { r with
          current_idx := r.current_idx + 1
          pos := ((r.files.getD (r.current_idx + 1) []).take
            (size - data.length)).length }
        (data ++ (r.files.getD (r.current_idx + 1) []).take
          (size - data.length))
        size
        (by simp; omega)
        (⟨by simp; omega, by
          show ((r.files.getD (r.current_idx + 1) []).take
            (size - data.length)).length ≤ _
          simp [List.length_take]⟩)
        (by
          simp only [List.length_append, List.length_take]
          omega)
        (by
          simp only [List.length_append, List.length_take]
          intro h
          omega)
      have hsz : size - (data ++ (r.files.getD (r.current_idx + 1) []).take
          (size - data.length)).length =
          (size - data.length) -
            ((r.files.getD (r.current_idx + 1) []).take
              (size - data.length)).length := by
        simp only [List.length_append]
        omega
      have hrem2 : ({ r with
          current_idx := r.current_idx + 1
          pos := ((r.files.getD (r.current_idx + 1) []).take
            (size - data.length)).length } :
            MultiPartFileReader).remainingBytes =
          (r.files.getD (r.current_idx + 1) []).drop
            ((r.files.getD (r.current_idx + 1) []).take
              (size - data.length)).length ++
            (r.files.drop (r.current_idx + 2)).flatten := rfl
      refine ⟨?_, by rw [heq]; exact hb2, by rw [heq]; exact hb3, ?_⟩
      · rw [heq, hb1, hsz, hrem2, hrem, List.append_assoc, take_chain]
      · rw [heq, hb4, hsz, hrem2, hrem, drop_chain]
    · have heq : MultiPartFileReader.readLoop size r data = (data, r) := by
        conv_lhs => rw [MultiPartFileReader.readLoop]
        rw [dif_neg hcond]
      by_cases hlt : data.length < size
      · have hlast : ¬ r.current_idx < r.files.length - 1 := by
          intro h
          exact hcond ⟨hlt, h⟩
        have h1 : r.pos = (r.files.getD r.current_idx []).length :=
          hexh hlt
        have h2 : r.files.drop (r.current_idx + 1) = [] :=
          List.drop_eq_nil_of_le (by omega)
        have hrem : r.remainingBytes = [] := by
          rw [MultiPartFileReader.remainingBytes, h1, List.drop_length, h2]
          simp
        rw [heq, hrem]
        exact ⟨by simp, rfl, ⟨hidx, hpos⟩, by simp⟩
      · have hm : size - data.length = 0 := by omega
        rw [heq, hm]
        exact ⟨by simp, rfl, ⟨hidx, hpos⟩, by simp⟩

/-- Specification of the sized branch of `read`. -/
theorem MultiPartFileReader.readSized_spec (r : MultiPartFileReader)
    (size : Nat) (hwf : r.wfState) :
    (r.readSized size).1 = r.remainingBytes.take size ∧
    (r.readSized size).2.files = r.files ∧
    (r.readSized size).2.wfState ∧
    (r.readSized size).2.remainingBytes = r.remainingBytes.drop size := by
  obtain ⟨hidx, hpos⟩ := hwf
  have heq : r.readSized size = MultiPartFileReader.readLoop size
      { r with pos := r.pos +
        (((r.files.getD r.current_idx []).drop r.pos).take size).length }
      (((r.files.getD r.current_idx []).drop r.pos).take size) := by
    rw [MultiPartFileReader.readSized]
  obtain ⟨hb1, hb2, hb3, hb4⟩ := MultiPartFileReader.readLoop_spec
    (r.files.length - r.current_idx)
    { r with pos := r.pos +
      (((r.files.getD r.current_idx []).drop r.pos).take size).length }
    (((r.files.getD r.current_idx []).drop r.pos).take size)
    size
    (by simp)
    (⟨by simpa using hidx, by
      show r.pos + (((r.files.getD r.current_idx []).drop r.pos).take
        size).length ≤ (r.files.getD r.current_idx []).length
      simp only [List.length_take, List.length_drop]
      omega⟩)
    (by simp [List.length_take])
    (by
      simp only [List.length_take, List.length_drop]
      intro h
      omega)
  have hrem1 : ({ r with pos := r.pos +
      (((r.files.getD r.current_idx []).drop r.pos).take size).length } :
        MultiPartFileReader).remainingBytes =
      ((r.files.getD r.current_idx []).drop r.pos).drop
        (((r.files.getD r.current_idx []).drop r.pos).take size).length ++
        (r.files.drop (r.current_idx + 1)).flatten := by
    rw [MultiPartFileReader.remainingBytes]
    simp only [← List.drop_drop]
  have hsz : size - (((r.files.getD r.current_idx []).drop r.pos).take
      size).length = size - (((r.files.getD r.current_idx []).drop
        r.pos).take size).length := rfl
  refine ⟨?_, by rw [heq]; exact hb2, by rw [heq]; exact hb3, ?_⟩
  · rw [heq, hb1, hrem1, MultiPartFileReader.remainingBytes, take_chain]
  · rw [heq, hb4, hrem1, MultiPartFileReader.remainingBytes, drop_chain]

/-! ## Composition lemmas for the full pipeline -/

theorem SplitFileWriter.close_allParts (w : SplitFileWriter) :
    w.close.allParts = w.allParts := by
  cases h : w.cur <;>
    simp [SplitFileWriter.close, SplitFileWriter.allParts, h]

theorem SplitFileWriter.close_part_num (w : SplitFileWriter) :
    w.close.part_num = w.part_num := by
  cases h : w.cur <;> simp [SplitFileWriter.close, h]

theorem SplitFileWriter.close_cur (w : SplitFileWriter) :
    w.close.cur = w.cur := by
  cases h : w.cur <;> simp [SplitFileWriter.close, h]

theorem pgz_pair_none (x : PGzip × Option String) (h : x.2 = none) :
    x = (x.1, none) := by
  obtain ⟨x1, x2⟩ := x
  simp only at h
  rw [h]

theorem foldl_chunkStep_flatten (cs : Nat) :
    ∀ (ws : List Bytes) (acc : List Bytes) (buf : Bytes),
    (ws.foldl (chunkStep cs) (acc, buf)).1.flatten ++
      (ws.foldl (chunkStep cs) (acc, buf)).2 =
    acc.flatten ++ buf ++ ws.flatten := by
  intro ws
  induction ws with
  | nil => intro acc buf; simp
  | cons d ds ih =>
    intro acc buf
    simp only [List.foldl_cons, List.flatten_cons]
    by_cases hstep : buf ++ d ≠ [] ∧ cs ≤ (buf ++ d).length
    · have h1 : chunkStep cs (acc, buf) d = (acc ++ [buf ++ d], []) := by
        simp only [chunkStep]
        rw [if_pos hstep]
      rw [h1, ih]
      simp [List.append_assoc]
    · have h1 : chunkStep cs (acc, buf) d = (acc, buf ++ d) := by
        simp only [chunkStep]
        rw [if_neg hstep]
      rw [h1, ih]
      simp [List.append_assoc]

/-- Chunking preserves the byte stream: the chunks concatenate back to the
full input. -/
theorem chunksOf_flatten (cs : Nat) (ws : List Bytes) :
    (chunksOf cs ws).flatten = ws.flatten := by
  have h := foldl_chunkStep_flatten cs ws [] []
  simp only [List.flatten_nil, List.nil_append] at h
  rw [chunksOf]
  by_cases h2 : (ws.foldl (chunkStep cs) ([], [])).2 = []
  · rw [h2] at h
    simp only [List.append_nil] at h
    simp [h2, h]
  · simp only [h2, if_false]
    rw [List.flatten_append]
    simpa using h

/-- Decoding a concatenation of independently-compressed frames recovers
the concatenation of the original chunks. -/
theorem decomp_frames (c : Bytes → Bytes) (decomp : Bytes → Bytes)
    (hcd : ∀ a rest, decomp (c a ++ rest) = a ++ decomp rest)
    (hd0 : decomp [] = []) :
    ∀ l : List Bytes, decomp ((l.map c).flatten) = l.flatten := by
  intro l
  induction l with
  | nil => simpa using hd0
  | cons a t ih =>
    simp only [List.map_cons, List.flatten_cons, List.cons_append]
    rw [hcd, ih]

/-- The pipeline with a total compressor reduces to: replay the serial
compression of the chunks into the split sink, then close it. -/
theorem pipelineRun_eq (c : Bytes → Bytes) (cs W ss : Nat) (s3 : Bool)
    (ws : List Bytes) :
    pipelineRun c cs W ss s3 ws =
      (SplitFileWriter.runWrites (SplitFileWriter.mk0 ss s3)
        (serialCompression c cs ws)).map SplitFileWriter.close := by
  obtain ⟨h0, h1, -, -⟩ := PGzip.run_total c cs W ws
  rw [pipelineRun, pgz_pair_none _ h0]
  show Option.map SplitFileWriter.close
    ((SplitFileWriter.mk0 ss s3).runWrites
      (PGzip.run (totalC c) cs W ws).1.sink_writes) = _
  rw [h1]

/-- The initial reader's remaining bytes are the whole concatenation. -/
theorem remainingBytes_initial (files : List Bytes)
    (h : 0 < files.length) :
    (MultiPartFileReader.mk files 0 0).remainingBytes = files.flatten := by
  rw [MultiPartFileReader.remainingBytes]
  simp only [List.drop_zero]
  have h2 := flatten_drop_succ files 0 h
  simp only [List.drop_zero, Nat.zero_add] at h2
  exact h2.symm

/-- `frameC` frames are concatenable: decoding a frame followed by anything
recovers the chunk and continues. -/
theorem deframe_frameC (a rest : Bytes) :
    deframe (frameC a ++ rest) = a ++ deframe rest := by
  show deframe (a.length :: (a ++ rest)) = a ++ deframe rest
  rw [deframe]
  rw [List.take_left, List.drop_left]

/-! ## The claims -/

/-- C1: for every input write sequence and every worker count, the sequence
of byte strings `ParallelGzipWriter` writes to its sink over the whole
`write`…`close` lifetime equals the serial, non-parallel compression of the
stream's chunks in formation order (`serialCompression`, written from the
spec's words), and no exception is raised.  Worker completion order cannot
affect this: results are drained from the head of the futures FIFO in
submission order, and each result is a function of its own chunk alone. -/
theorem claim_C1_output_equals_serial (c : Bytes → Bytes) (cs W : Nat)
    (ws : List Bytes) :
    (PGzip.run (totalC c) cs W ws).2 = none ∧
    (PGzip.run (totalC c) cs W ws).1.sink_writes =
      serialCompression c cs ws := by
  obtain ⟨h0, h1, -, -⟩ := PGzip.run_total c cs W ws
  exact ⟨h0, h1⟩

/-- C2 counterexample: the round-trip identity fails for the empty byte
sequence, which the claim explicitly includes.  Writing nothing produces
zero segment files, and `MultiPartFileReader`'s constructor then fails with
`FileNotFoundError` (`No split files found`) instead of yielding the empty
sequence. -/
theorem claim_C2_counterexample :
    (pipelineRun frameC 4 2 5 false []).map SplitFileWriter.allParts =
      some [] ∧
    MultiPartFileReader.make [] = Except.error "No split files found" := by
  constructor
  · rfl
  · rfl

/-- C2 (amended): the round-trip identity holds for every input containing
at least one byte (so that at least one segment exists): compressing the
writes through `ParallelGzipWriter` into a `SplitFileWriter`, reading all
the parts back through `MultiPartFileReader`, and decompressing the
concatenation of independently-compressed frames yields exactly the
original bytes. -/
theorem claim_C2_roundtrip (c decomp : Bytes → Bytes) (cs W ss : Nat)
    (s3 : Bool) (ws : List Bytes)
    (hss : 0 < ss) (hne : ws.flatten ≠ [])
    (hcd : ∀ a rest, decomp (c a ++ rest) = a ++ decomp rest)
    (hd0 : decomp [] = []) :
    ∃ w' r0, pipelineRun c cs W ss s3 ws = some w' ∧
      MultiPartFileReader.make w'.allParts = Except.ok r0 ∧
      decomp r0.readAll.1 = ws.flatten := by
  rw [pipelineRun_eq]
  obtain ⟨w1, hrun, hwf1, hsz1, hs31, hcur1, hflat1, htot1⟩ :=
    SplitFileWriter.runWrites_spec (serialCompression c cs ws)
      (SplitFileWriter.mk0 ss s3) (SplitFileWriter.wfState_mk0 ss s3) hss
  have hchne : chunksOf cs ws ≠ [] := by
    intro h
    apply hne
    rw [← chunksOf_flatten cs ws, h]
    rfl
  have htrne : serialCompression c cs ws ≠ [] := by
    rw [serialCompression]
    intro h
    exact hchne (List.map_eq_nil_iff.mp h)
  have hcur : w1.cur.isSome = true := by
    rcases hcur1 with h | ⟨h, -⟩
    · exact h
    · exact absurd h htrne
  obtain ⟨cc, hcc⟩ := Option.isSome_iff_exists.mp hcur
  have hflat : w1.allParts.flatten = ((chunksOf cs ws).map c).flatten := by
    rw [hflat1]
    rfl
  have hne2 : w1.allParts ≠ [] := by
    rw [SplitFileWriter.allParts, hcc]
    simp
  have hmk : MultiPartFileReader.make w1.close.allParts =
      Except.ok (MultiPartFileReader.mk w1.allParts 0 0) := by
    rw [SplitFileWriter.close_allParts, MultiPartFileReader.make,
      if_neg hne2]
  refine ⟨w1.close, MultiPartFileReader.mk w1.allParts 0 0,
    by rw [hrun]; rfl, hmk, ?_⟩
  obtain ⟨ha1, -, -, -⟩ := MultiPartFileReader.readAll_spec
    (w1.allParts.length) (MultiPartFileReader.mk w1.allParts 0 0)
    (by simp) ⟨by simpa using List.length_pos.mpr hne2, by simp⟩
  rw [ha1, remainingBytes_initial _ (List.length_pos.mpr hne2), hflat,
    decomp_frames c decomp hcd hd0, chunksOf_flatten]

/-- C2 witness: a concrete ten-byte round trip through the pipeline with
the length-prefix frame codec. -/
theorem claim_C2_roundtrip_witness :
    ∃ w' r0, pipelineRun frameC 4 2 5 false [List.range 10] = some w' ∧
      MultiPartFileReader.make w'.allParts = Except.ok r0 ∧
      deframe r0.readAll.1 = ([List.range 10] : List Bytes).flatten :=
  claim_C2_roundtrip frameC deframe 4 2 5 false [List.range 10]
    (by decide) (by decide) deframe_frameC (by rw [deframe])

/-- C3: for every configured split size `C > 0` and every sequence of
writes (individual writes may be arbitrarily larger than `C`), every
segment closed by a rollover contains exactly `C` bytes, and the still-open
segment holds at most `C` bytes — so no segment ever receives more than `C`
bytes and only the last may hold fewer. -/
theorem claim_C3_segment_capacity (ss : Nat) (s3 : Bool) (ws : List Bytes)
    (hss : 0 < ss) :
    ∃ w', SplitFileWriter.runWrites (SplitFileWriter.mk0 ss s3) ws =
        some w' ∧
      (∀ p ∈ w'.closed_parts, p.length = ss) ∧
      (∀ cbuf, w'.cur = some cbuf → cbuf.length ≤ ss) := by
  obtain ⟨w', h1, hwf, hsz, -, -, -, -⟩ :=
    SplitFileWriter.runWrites_spec ws (SplitFileWriter.mk0 ss s3)
      (SplitFileWriter.wfState_mk0 ss s3) hss
  refine ⟨w', h1, ?_, ?_⟩
  · intro p hp
    have h2 := hwf.2.2.2 p hp
    rwa [hsz] at h2
  · intro cbuf hc
    have h2 := hwf.2.1 cbuf hc
    have h3 := hwf.1
    rw [hsz] at h3
    rw [h2]
    exact h3

/-- C3 witness: a three-byte write into capacity-2 segments. -/
theorem claim_C3_witness :
    0 < 2 ∧
    ∃ w', SplitFileWriter.runWrites (SplitFileWriter.mk0 2 false)
        [[0, 1, 2]] = some w' ∧
      (∀ p ∈ w'.closed_parts, p.length = 2) ∧
      (∀ cbuf, w'.cur = some cbuf → cbuf.length ≤ 2) :=
  ⟨by decide, claim_C3_segment_capacity 2 false [[0, 1, 2]] (by decide)⟩

/-- C4 counterexample: with one worker (threshold `T = 2`) and three
one-byte chunks, the pending count reaches 3 immediately after the third
submission, before the drain that this submission triggers — so the
pending-results count does exceed `T` during the run. -/
theorem claim_C4_counterexample :
    ¬ ((PGzip.run (totalC (fun b => b)) 1 1 [[0], [1], [2]]).1.max_pending
      ≤ 2 * 1) := by
  decide

/-- C4 (amended): the pending count exceeds the threshold `T = 2×workers`
only by the single chunk whose submission triggers the drain: the high-water
mark of the pending count never exceeds `2×workers + 1`, at every point of
the `write` sequence and over the whole lifetime. -/
theorem claim_C4_backpressure_amended (c : Bytes → Bytes) (cs W : Nat)
    (ws : List Bytes) :
    (PGzip.runWrites (totalC c) (PGzip.mk0 cs W) ws).1.max_pending ≤
      2 * W + 1 ∧
    (PGzip.run (totalC c) cs W ws).1.max_pending ≤ 2 * W + 1 := by
  obtain ⟨-, -, -, -, -, -, h6⟩ :=
    PGzip.runWrites_total c ws (PGzip.mk0 cs W)
  obtain ⟨-, -, -, h4⟩ := PGzip.run_total c cs W ws
  exact ⟨h6 (by simp [PGzip.mk0]) (by simp [PGzip.mk0]), h4⟩

/-- C5: from any well-formed reader state, `read(n)` returns exactly
`min n remaining` bytes — the corresponding slice of the concatenation of
all segment contents — transparently advancing across segment boundaries;
the result is shorter than `n` only when every segment is exhausted, and
`read(-1)` returns all remaining bytes. -/
theorem claim_C5_boundary_transparent_read (r : MultiPartFileReader)
    (n : Nat) (hwf : r.wfState) :
    (r.read (n : Int)).1 = r.remainingBytes.take n ∧
    (r.read (n : Int)).1.length = min n r.remainingBytes.length ∧
    (r.read (n : Int)).2.remainingBytes = r.remainingBytes.drop n ∧
    (r.read (n : Int)).2.wfState ∧
    ((r.read (n : Int)).1.length < n →
      (r.read (n : Int)).2.remainingBytes = []) ∧
    (r.read (-1)).1 = r.remainingBytes := by
  have hdisp : r.read (n : Int) = r.readSized n := by
    rw [MultiPartFileReader.read, if_neg (by omega), Int.toNat_natCast]
  obtain ⟨hs1, hs2, hs3, hs4⟩ := MultiPartFileReader.readSized_spec r n hwf
  have hlen : (r.read (n : Int)).1.length = min n r.remainingBytes.length
    := by
    rw [hdisp, hs1, List.length_take]
  refine ⟨by rw [hdisp, hs1], hlen, by rw [hdisp, hs4], ?_, ?_, ?_⟩
  · rw [hdisp]
    exact hs3
  · intro hshort
    rw [hlen] at hshort
    rw [hdisp, hs4]
    exact List.drop_eq_nil_of_le (by omega)
  · have hall : r.read (-1) = r.readAll := by
      rw [MultiPartFileReader.read, if_pos rfl]
    obtain ⟨ha1, -, -, -⟩ := MultiPartFileReader.readAll_spec
      (r.files.length - r.current_idx) r (le_refl _) hwf
    rw [hall, ha1]

/-- C5 witness: reading 3 bytes from two segments of sizes 2 and 1. -/
theorem claim_C5_witness :
    (MultiPartFileReader.mk [[0, 1], [2]] 0 0).wfState ∧
    ((MultiPartFileReader.mk [[0, 1], [2]] 0 0).read ((3 : Nat) : Int)).1 =
      (MultiPartFileReader.mk [[0, 1], [2]] 0 0).remainingBytes.take 3 ∧
    ((MultiPartFileReader.mk [[0, 1], [2]] 0 0).read (-1)).1 =
      (MultiPartFileReader.mk [[0, 1], [2]] 0 0).remainingBytes := by
  have hwf : (MultiPartFileReader.mk [[0, 1], [2]] 0 0).wfState :=
    ⟨by decide, by decide⟩
  obtain ⟨h1, -, -, -, -, h6⟩ :=
    claim_C5_boundary_transparent_read (MultiPartFileReader.mk
      [[0, 1], [2]] 0 0) 3 hwf
  exact ⟨hwf, h1, h6⟩

/-- C6: if the compression of chunk `k` fails (and those before it
succeed), the error is raised by the run — surfacing when that chunk's
result is drained — after the results of chunks `0..k-1` have all been
written to the sink, in order, and before any later chunk's result is
written: the sink trace is exactly the first `k` results. -/
theorem claim_C6_failure_propagation
    (f : Nat → Bytes → Except String Bytes) (r : Nat → Bytes) (e : String)
    (k cs W : Nat) (ws : List Bytes)
    (hok : ∀ j, j < k →
      f j ((chunksOf cs ws).getD j []) = Except.ok (r j))
    (hk : k < (chunksOf cs ws).length)
    (herr : f k ((chunksOf cs ws).getD k []) = Except.error e) :
    (PGzip.run f cs W ws).2 = some e ∧
    (PGzip.run f cs W ws).1.sink_writes = (List.range k).map r := by
  have hrun : PGzip.run f cs W ws = PGzip.runFrom f (PGzip.mk0 cs W) ws :=
    rfl
  rw [hrun]
  exact PGzip.runFrom_fail f r e k ws (PGzip.mk0 cs W) [] 0 rfl rfl rfl
    (Nat.zero_le _) (Nat.zero_le _) hok hk herr

/-- C6 witness: four two-byte chunks with a forced failure on chunk 1:
only chunk 0's result reaches the sink and the error surfaces. -/
theorem claim_C6_witness :
    (∀ j, j < 1 →
      (fun i d => if i = 1 then (Except.error "boom" :
          Except String Bytes) else Except.ok (0 :: d)) j
        ((chunksOf 2 [[0, 1], [2, 3], [4, 5], [6, 7]]).getD j []) =
      Except.ok ((fun j =>
        0 :: (chunksOf 2 [[0, 1], [2, 3], [4, 5], [6, 7]]).getD j []) j)) ∧
    1 < (chunksOf 2 [[0, 1], [2, 3], [4, 5], [6, 7]]).length ∧
    (PGzip.run (fun i d => if i = 1 then Except.error "boom"
        else Except.ok (0 :: d)) 2 1 [[0, 1], [2, 3], [4, 5], [6, 7]]).2 =
      some "boom" ∧
    (PGzip.run (fun i d => if i = 1 then Except.error "boom"
        else Except.ok (0 :: d)) 2 1
        [[0, 1], [2, 3], [4, 5], [6, 7]]).1.sink_writes =
      (List.range 1).map (fun j =>
        0 :: (chunksOf 2 [[0, 1], [2, 3], [4, 5], [6, 7]]).getD j []) := by
  have h := claim_C6_failure_propagation
    (fun i d => if i = 1 then Except.error "boom" else Except.ok (0 :: d))
    (fun j => 0 :: (chunksOf 2 [[0, 1], [2, 3], [4, 5], [6, 7]]).getD j [])
    "boom" 1 2 1 [[0, 1], [2, 3], [4, 5], [6, 7]]
    (by
      intro j hj
      have hj0 : j = 0 := by omega
      subst hj0
      rfl)
    (by decide) (by rfl)
  refine ⟨?_, by decide, h.1, h.2⟩
  intro j hj
  have hj0 : j = 0 := by omega
  subst hj0
  rfl

/-- C7: the code violates close-idempotence: `SplitFileWriter.close` does
not reset `current_file`, so a second `close()` re-appends the final
segment's filename to `files_ready_for_upload` when an S3 bucket is
configured (`run_backup` does close the sink twice: once through
`ParallelGzipWriter.close` and once directly, lines 314–315).  Evaluated at
the failing input: after one write and two closes the upload list holds
part 0 twice. -/
theorem claim_C7_double_close_bug :
    ((SplitFileWriter.mk0 5 true).write [0, 1]).map
        (fun w => (w.close.files_ready_for_upload,
          w.close.close.files_ready_for_upload)) =
      some ([0], [0, 0]) := by
  decide

/-- C8: if no bytes are ever written before `close()`, no segment file is
created: the part count is 0, `is_single_file` reports `false`, and the
whole pipeline closes without error (the run returns `some` final sink). -/
theorem claim_C8_empty_input (c : Bytes → Bytes) (cs W ss : Nat)
    (s3 : Bool) :
    pipelineRun c cs W ss s3 [] =
      some (SplitFileWriter.mk0 ss s3).close ∧
    (SplitFileWriter.mk0 ss s3).close.get_part_count = 0 ∧
    (SplitFileWriter.mk0 ss s3).close.is_single_file = false ∧
    (SplitFileWriter.mk0 ss s3).close.allParts = [] := by
  exact ⟨rfl, rfl, rfl, rfl⟩

/-- C9: the code contradicts the byte-count claim: `total_bytes_written`
misses the `data[:remaining_space]` bytes written at rollover boundaries
(the splitting branch of `write` does not add them), so after writing 10
bytes into capacity-6 segments it reads 4, not 10.  The precise accounting
is `total_bytes_written + rollover_bytes = sum of input lengths`, where
`rollover_bytes` counts exactly the uncounted boundary bytes. -/
theorem claim_C9_total_bytes_bug :
    (((SplitFileWriter.mk0 6 false).write (List.range 10)).map
      SplitFileWriter.total_bytes_written ≠
        some (List.range 10).length) ∧
    (∀ (ss : Nat) (s3 : Bool) (ws : List Bytes), 0 < ss →
      ∃ w', SplitFileWriter.runWrites (SplitFileWriter.mk0 ss s3) ws =
          some w' ∧
        w'.total_bytes_written + w'.rollover_bytes =
          (ws.map List.length).sum) := by
  refine ⟨by decide, ?_⟩
  intro ss s3 ws hss
  obtain ⟨w', h1, -, -, -, -, -, htot⟩ :=
    SplitFileWriter.runWrites_spec ws (SplitFileWriter.mk0 ss s3)
      (SplitFileWriter.wfState_mk0 ss s3) hss
  exact ⟨w', h1, by simpa [SplitFileWriter.mk0] using htot⟩

/-- C9 witness: the accounting identity at a concrete split input. -/
theorem claim_C9_witness :
    0 < 6 ∧
    ∃ w', SplitFileWriter.runWrites (SplitFileWriter.mk0 6 false)
        [List.range 10] = some w' ∧
      w'.total_bytes_written + w'.rollover_bytes =
        (([List.range 10] : List Bytes).map List.length).sum :=
  ⟨by decide, claim_C9_total_bytes_bug.2 6 false [List.range 10]
    (by decide)⟩

/-- C10: whenever draining is triggered it empties the entire pending FIFO
(`while self.futures`), not merely down to the threshold; consequently
every completed `write` sequence leaves at most `2×workers` pending
results, and the whole lifetime (ending in `close`) leaves zero. -/
theorem claim_C10_drain_to_empty (c : Bytes → Bytes) (cs W : Nat)
    (ws : List Bytes) (s : PGzip) :
    (s.drainFutures (totalC c)).1.futures = [] ∧
    (PGzip.runWrites (totalC c) (PGzip.mk0 cs W) ws).1.futures.length ≤
      2 * W ∧
    (PGzip.run (totalC c) cs W ws).1.futures = [] := by
  obtain ⟨-, -, -, -, -, h5, -⟩ :=
    PGzip.runWrites_total c ws (PGzip.mk0 cs W)
  obtain ⟨-, -, h3, -⟩ := PGzip.run_total c cs W ws
  refine ⟨?_, h5 (by simp [PGzip.mk0]), h3⟩
  rw [PGzip.drainFutures_total]

end Archivedir
